import Mathlib

/-!
Shallow embedding of `src/function_worker_map.rs` (valve-router).

The source maintains a `BTreeMap<StaticName, Vec<FunctionWorkerConfig>>`
mapping function names to worker-config sequences, re-sorting a sequence
descending by `(max_concurrency - traffic) as i32` on every insert into an
existing key, and answering "least busy worker" by returning a copy of the
first element.

Machine integers are embedded as `Nat` with explicit `% 2^32` where u32
wrap-around matters, and the `u32 as i32` cast is made explicit in `toI32`.
-/

/-- The `StaticName` type is `[u8; 64]` in the source; embedded as a byte list. -/
abbrev StaticName := List Nat

/-- One write step of the loop in `static_name_from_str`: `name[i] = c` for
each byte, `none` when the index is out of bounds (the panic of `name[i]`). -/
def writeBytes : List Nat → Nat → List Nat → Option (List Nat)
  | [], _, name => some name
  | c :: rest, i, name =>
    if i < name.length then writeBytes rest (i + 1) (name.set i c) else none

/-- Embedding of `static_name_from_str`: starts from `[0u8; 64]` and writes the string's
bytes at indices `0, 1, ...`. -/
def static_name_from_str (s : List Nat) : Option StaticName :=
  writeBytes s 0 (List.replicate 64 0)

/-- Structure `FunctionWorkerConfig` from the source, fields in source order. -/
structure FunctionWorkerConfig where
  function_name : StaticName
  worker_uuid : StaticName
  timeout : Nat
  traffic : Nat
  max_concurrency : Nat
deriving DecidableEq

/-- Embedding of `FunctionWorkerConfig::copy`: rebuilds the record field by
field. -/
def FunctionWorkerConfig.copy (c : FunctionWorkerConfig) : FunctionWorkerConfig :=
  ⟨c.function_name, c.worker_uuid, c.timeout, c.traffic, c.max_concurrency⟩

/-- u32 subtraction with wrap-around (release-mode `a - b` on `u32`),
meaningful for `a b < 2^32`. -/
def u32WrapSub (a b : Nat) : Nat := (a + 2 ^ 32 - b) % 2 ^ 32

/-- Checked u32 subtraction: `none` is the overflow/panic branch of `a - b`. -/
def u32Sub (a b : Nat) : Option Nat := if b ≤ a then some (a - b) else none

/-- The `as i32` cast: reinterpret the low 32 bits as a signed value. -/
def toI32 (n : Nat) : Int :=
  if n % 2 ^ 32 < 2 ^ 31 then (n % 2 ^ 32 : Nat) else (n % 2 ^ 32 : Nat) - 2 ^ 32

/-- The sort key of the comparator in `insert_worker_config`:
`(max_concurrency - traffic) as i32`. -/
def sortKey (c : FunctionWorkerConfig) : Int :=
  toI32 (u32WrapSub c.max_concurrency c.traffic)

/-- The comparator `b_traffic_ratio.cmp(&a_traffic_ratio)` as the `le` test of
a stable sort: `a` may precede `b` iff `sortKey b ≤ sortKey a` (descending). -/
def workerLE (a b : FunctionWorkerConfig) : Bool :=
  decide (sortKey b ≤ sortKey a)

/-- The spare capacity `max_concurrency − current_load` of the spec, as the
exact natural-number difference. -/
def spareCap (c : FunctionWorkerConfig) : Nat := c.max_concurrency - c.traffic

/-- Structure `FunctionWorkerMap`: the `BTreeMap` is embedded by its lookup
function. -/
structure FunctionWorkerMap where
  map : StaticName → Option (List FunctionWorkerConfig)

/-- Embedding of `FunctionWorkerMap::new`. -/
def FunctionWorkerMap.new : FunctionWorkerMap := ⟨fun _ => none⟩

/-- Embedding of `FunctionWorkerMap::insert_worker_config`: if the key is absent, store a
fresh one-element vector (no sort); otherwise push the config and stably
re-sort the vector by the descending-`sortKey` comparator. -/
def FunctionWorkerMap.insert_worker_config (m : FunctionWorkerMap)
    (function_name : StaticName) (worker_config : FunctionWorkerConfig) :
    FunctionWorkerMap :=
  match m.map function_name with
  | none =>
    ⟨fun g => if g = function_name then some [worker_config] else m.map g⟩
  | some v =>
    ⟨fun g =>
      if g = function_name then
        some (List.mergeSort (v ++ [worker_config]) workerLE)
      else m.map g⟩

/-- Structure `LeastBusyWorkerError` from the source. -/
structure LeastBusyWorkerError where
  error_code : Nat
  error_message : String
deriving DecidableEq

/-- Embedding of `FunctionWorkerMap::get_least_busy_worker`: takes `&mut self`
but only
reads, so the state is threaded through unchanged; absent key is error code 1,
empty vector error code 2, otherwise a copy of the first element. -/
def FunctionWorkerMap.get_least_busy_worker (m : FunctionWorkerMap)
    (function_name : StaticName) :
    FunctionWorkerMap × Except LeastBusyWorkerError FunctionWorkerConfig :=
  match m.map function_name with
  | none =>
    (m, Except.error ⟨1, "No worker is mapped for the function"⟩)
  | some v =>
    match v with
    | [] => (m, Except.error ⟨2, "No worker is mapped for the function"⟩)
    | c :: _ => (m, Except.ok c.copy)

/-- Replay of a sequence of `insert_worker_config` calls from `new`. -/
def runTrace (t : List (StaticName × FunctionWorkerConfig)) : FunctionWorkerMap :=
  t.foldl (fun m p => m.insert_worker_config p.1 p.2) FunctionWorkerMap.new

/-- The configs registered for `f` by a trace, in registration order. -/
def insertedFor (f : StaticName) (t : List (StaticName × FunctionWorkerConfig)) :
    List FunctionWorkerConfig :=
  (t.filter (fun p => decide (p.1 = f))).map Prod.snd

/-- States reachable from `FunctionWorkerMap::new` by `insert_worker_config`. -/
inductive Reachable : FunctionWorkerMap → Prop where
  | base : Reachable FunctionWorkerMap.new
  | step {m : FunctionWorkerMap} (f : StaticName) (c : FunctionWorkerConfig) :
      Reachable m → Reachable (m.insert_worker_config f c)

/-- A config whose u32 fields satisfy the spec invariant
`current_load ≤ max_concurrency`, with the u32 range bound, and whose spare
capacity fits in `i32`. -/
def goodCfg (c : FunctionWorkerConfig) : Prop :=
  c.traffic ≤ c.max_concurrency ∧ c.max_concurrency < 2 ^ 32 ∧
    c.max_concurrency - c.traffic < 2 ^ 31

instance (c : FunctionWorkerConfig) : Decidable (goodCfg c) :=
  inferInstanceAs (Decidable (_ ∧ _ ∧ _))

/-- The per-function invariant tying a map state to the trace producing it:
an absent key means nothing was registered for it, and a stored vector is
sorted by the comparator and agrees with the registration order on every
equal-key class (stability). -/
def WInv (t : List (StaticName × FunctionWorkerConfig)) (m : FunctionWorkerMap) :
    Prop :=
  ∀ f, (m.map f = none → insertedFor f t = []) ∧
    ∀ v, m.map f = some v →
      v.Pairwise (fun a b => workerLE a b) ∧
      ∀ q : Int, v.filter (fun d => decide (sortKey d = q)) =
        (insertedFor f t).filter (fun d => decide (sortKey d = q))

/-- Sample config: spare capacity 1. -/
def cfg1 : FunctionWorkerConfig := ⟨[1], [2], 10000, 0, 1⟩

/-- Sample config: spare capacity 2. -/
def cfg2 : FunctionWorkerConfig := ⟨[1], [3], 10000, 0, 2⟩

/-- Sample config: spare capacity 2 under load. -/
def cfg2b : FunctionWorkerConfig := ⟨[1], [4], 10000, 1, 3⟩

/-- Sample config: spare capacity 1, tied with `cfg1`, later worker. -/
def cfgTie : FunctionWorkerConfig := ⟨[1], [3], 10000, 0, 1⟩

/-- Sample config: fully saturated (`traffic = max_concurrency`). -/
def cfgSat : FunctionWorkerConfig := ⟨[1], [2], 10000, 1, 1⟩

/-- Sample config: `max_concurrency = 0` and a function name other than `[1]`. -/
def cfgZero : FunctionWorkerConfig := ⟨[9], [2], 10000, 0, 0⟩

/-- Sample config: worker `[7]`, spare capacity 1. -/
def cfgDupA : FunctionWorkerConfig := ⟨[1], [7], 10000, 0, 1⟩

/-- Sample config: same worker `[7]` as `cfgDupA`, spare capacity 5. -/
def cfgDupB : FunctionWorkerConfig := ⟨[1], [7], 10000, 0, 5⟩

/-- Sample config: spare capacity `2^31`, which the `i32` cast makes negative. -/
def cfgBig : FunctionWorkerConfig := ⟨[1], [2], 10000, 0, 2147483648⟩

/-- Sample config: spare capacity 1, registered after `cfgBig`. -/
def cfgSmall : FunctionWorkerConfig := ⟨[1], [3], 10000, 0, 1⟩

theorem copy_eq (c : FunctionWorkerConfig) : c.copy = c := rfl

theorem workerLE_trans (a b c : FunctionWorkerConfig) :
    workerLE a b → workerLE b c → workerLE a c := by
  simp only [workerLE, decide_eq_true_eq]
  exact fun h1 h2 => le_trans h2 h1

theorem workerLE_total (a b : FunctionWorkerConfig) :
    workerLE a b || workerLE b a := by
  simp only [workerLE, Bool.or_eq_true, decide_eq_true_eq]
  exact le_total _ _

theorem writeBytes_in_bounds :
    ∀ (cs : List Nat) (i : Nat) (name : List Nat),
      i + cs.length ≤ name.length →
      writeBytes cs i name =
        some (name.take i ++ cs ++ name.drop (i + cs.length)) := by
  intro cs
  induction cs with
  | nil =>
    intro i name h
    simp only [writeBytes, List.length_nil, Nat.add_zero]
    rw [List.append_nil, List.take_append_drop]
  | cons c rest ih =>
    intro i name h
    have hi : i < name.length := by
      simp only [List.length_cons] at h; omega
    simp only [writeBytes, if_pos hi]
    rw [ih (i + 1) (name.set i c)
      (by simp only [List.length_set]; simp only [List.length_cons] at h; omega)]
    have htake : (name.set i c).take (i + 1) = name.take i ++ [c] := by
      rw [List.set_eq_take_cons_drop c hi]
      rw [List.take_append_eq_append_take]
      have hlt : (name.take i).length = i := by
        rw [List.length_take]; omega
      rw [List.take_take]
      have : min (i + 1) i = i := by omega
      rw [this, hlt]
      have : i + 1 - i = 1 := by omega
      rw [this]
      simp
    have hdrop : (name.set i c).drop (i + 1 + rest.length) =
        name.drop (i + 1 + rest.length) := by
      exact List.drop_set_of_lt c name (by omega)
    rw [htake, hdrop]
    have harith : i + (c :: rest).length = i + 1 + rest.length := by
      simp [List.length_cons]; omega
    rw [harith]
    simp [List.append_assoc]

theorem writeBytes_out_of_bounds :
    ∀ (cs : List Nat) (i : Nat) (name : List Nat),
      name.length < i + cs.length → i ≤ name.length →
      writeBytes cs i name = none := by
  intro cs
  induction cs with
  | nil =>
    intro i name h h2
    simp only [List.length_nil, Nat.add_zero] at h
    omega
  | cons c rest ih =>
    intro i name h h2
    by_cases hi : i < name.length
    · simp only [writeBytes, if_pos hi]
      exact ih (i + 1) (name.set i c)
        (by simp only [List.length_set]; simp only [List.length_cons] at h; omega)
        (by simp only [List.length_set]; omega)
    · simp only [writeBytes, if_neg hi]

theorem insert_map_ne (m : FunctionWorkerMap) (f : StaticName)
    (c : FunctionWorkerConfig) (g : StaticName) (h : g ≠ f) :
    (m.insert_worker_config f c).map g = m.map g := by
  unfold FunctionWorkerMap.insert_worker_config
  cases m.map f <;> simp [h]

theorem insert_map_self_none (m : FunctionWorkerMap) (f : StaticName)
    (c : FunctionWorkerConfig) (h : m.map f = none) :
    (m.insert_worker_config f c).map f = some [c] := by
  unfold FunctionWorkerMap.insert_worker_config
  rw [h]
  simp

theorem insert_map_self_some (m : FunctionWorkerMap) (f : StaticName)
    (c : FunctionWorkerConfig) (v : List FunctionWorkerConfig)
    (h : m.map f = some v) :
    (m.insert_worker_config f c).map f =
      some (List.mergeSort (v ++ [c]) workerLE) := by
  unfold FunctionWorkerMap.insert_worker_config
  rw [h]
  simp

theorem runTrace_append (t : List (StaticName × FunctionWorkerConfig))
    (p : StaticName × FunctionWorkerConfig) :
    runTrace (t ++ [p]) = (runTrace t).insert_worker_config p.1 p.2 := by
  simp [runTrace, List.foldl_append]

theorem insertedFor_append (f : StaticName)
    (t : List (StaticName × FunctionWorkerConfig)) (g : StaticName)
    (c : FunctionWorkerConfig) :
    insertedFor f (t ++ [(g, c)]) =
      insertedFor f t ++ (if g = f then [c] else []) := by
  simp only [insertedFor, List.filter_append, List.map_append]
  by_cases h : g = f <;> simp [h]

theorem filter_mergeSort_key (l : List FunctionWorkerConfig) (q : Int) :
    (List.mergeSort l workerLE).filter (fun d => decide (sortKey d = q)) =
      l.filter (fun d => decide (sortKey d = q)) := by
  have hpair : (l.filter (fun d => decide (sortKey d = q))).Pairwise
      (fun a b => workerLE a b) := by
    apply List.pairwise_of_forall_mem_list
    intro a ha b hb
    have h1 := List.of_mem_filter ha
    have h2 := List.of_mem_filter hb
    simp only [decide_eq_true_eq] at h1 h2
    simp [workerLE, h1, h2]
  have h1 : List.Sublist (l.filter (fun d => decide (sortKey d = q)))
      (List.mergeSort l workerLE) :=
    List.sublist_mergeSort workerLE_trans workerLE_total hpair
      (List.filter_sublist l)
  have h2 : List.Sublist (l.filter (fun d => decide (sortKey d = q)))
      ((List.mergeSort l workerLE).filter (fun d => decide (sortKey d = q))) := by
    have h' := h1.filter (fun d => decide (sortKey d = q))
    rwa [List.filter_eq_self.mpr (fun a ha => List.mem_filter.mp ha |>.2)] at h'
  have h3 : List.Perm
      ((List.mergeSort l workerLE).filter (fun d => decide (sortKey d = q)))
      (l.filter (fun d => decide (sortKey d = q))) :=
    (List.mergeSort_perm l workerLE).filter (fun d => decide (sortKey d = q))
  exact (h2.eq_of_length h3.length_eq.symm).symm

theorem wInv_runTrace (t : List (StaticName × FunctionWorkerConfig)) :
    WInv t (runTrace t) := by
  induction t using List.reverseRecOn with
  | nil =>
    intro f
    refine ⟨fun _ => rfl, fun v hv => ?_⟩
    exact absurd hv (by simp [runTrace, FunctionWorkerMap.new])
  | append_singleton t p ih =>
    obtain ⟨g, c⟩ := p
    rw [runTrace_append]
    intro f
    by_cases hf : f = g
    · subst hf
      cases h : (runTrace t).map f with
      | none =>
        rw [insertedFor_append]
        refine ⟨fun habs => ?_, fun v hv => ?_⟩
        · rw [insert_map_self_none _ _ _ h] at habs; exact absurd habs (by simp)
        · rw [insert_map_self_none _ _ _ h] at hv
          injection hv with hv
          subst hv
          refine ⟨by simp, fun q => ?_⟩
          rw [(ih f).1 h]
          simp
      | some v0 =>
        rw [insertedFor_append]
        refine ⟨fun habs => ?_, fun v hv => ?_⟩
        · rw [insert_map_self_some _ _ _ _ h] at habs; exact absurd habs (by simp)
        · rw [insert_map_self_some _ _ _ _ h] at hv
          injection hv with hv
          subst hv
          refine ⟨List.sorted_mergeSort workerLE_trans workerLE_total _,
            fun q => ?_⟩
          rw [filter_mergeSort_key, List.filter_append,
            ((ih f).2 v0 h).2 q, if_pos rfl, List.filter_append]
    · rw [insertedFor_append]
      rw [if_neg (fun hgf => hf hgf.symm)]
      rw [List.append_nil]
      refine ⟨fun habs => ?_, fun v hv => ?_⟩
      · rw [insert_map_ne _ _ _ _ hf] at habs
        exact (ih f).1 habs
      · rw [insert_map_ne _ _ _ _ hf] at hv
        exact (ih f).2 v hv

theorem mem_insertedFor_of_mem_vec
    (t : List (StaticName × FunctionWorkerConfig)) (f : StaticName)
    (v : List FunctionWorkerConfig) (d : FunctionWorkerConfig)
    (hv : (runTrace t).map f = some v) (hd : d ∈ v) :
    d ∈ insertedFor f t := by
  have hq := ((wInv_runTrace t f).2 v hv).2 (sortKey d)
  have hdf : d ∈ v.filter (fun e => decide (sortKey e = sortKey d)) :=
    List.mem_filter.mpr ⟨hd, by simp⟩
  rw [hq] at hdf
  exact (List.mem_filter.mp hdf).1

theorem mem_vec_of_mem_insertedFor
    (t : List (StaticName × FunctionWorkerConfig)) (f : StaticName)
    (v : List FunctionWorkerConfig) (d : FunctionWorkerConfig)
    (hv : (runTrace t).map f = some v) (hd : d ∈ insertedFor f t) :
    d ∈ v := by
  have hq := ((wInv_runTrace t f).2 v hv).2 (sortKey d)
  have hdf : d ∈ (insertedFor f t).filter (fun e => decide (sortKey e = sortKey d)) :=
    List.mem_filter.mpr ⟨hd, by simp⟩
  rw [← hq] at hdf
  exact (List.mem_filter.mp hdf).1

theorem goodCfg_of_mem_insertedFor
    (t : List (StaticName × FunctionWorkerConfig)) (f : StaticName)
    (d : FunctionWorkerConfig) (hb : ∀ p ∈ t, goodCfg p.2)
    (hd : d ∈ insertedFor f t) : goodCfg d := by
  simp only [insertedFor, List.mem_map] at hd
  obtain ⟨p, hp, hpd⟩ := hd
  exact hpd ▸ hb p (List.mem_of_mem_filter hp)

theorem sortKey_eq_spareCap (c : FunctionWorkerConfig) (h : goodCfg c) :
    sortKey c = (spareCap c : Int) := by
  obtain ⟨h1, h2, h3⟩ := h
  have hw : u32WrapSub c.max_concurrency c.traffic =
      c.max_concurrency - c.traffic := by
    unfold u32WrapSub
    omega
  have hm : (c.max_concurrency - c.traffic) % 2 ^ 32 =
      c.max_concurrency - c.traffic := Nat.mod_eq_of_lt (by omega)
  unfold sortKey toI32 spareCap
  rw [hw, hm, if_pos (by omega)]

theorem runTrace_vec_of_registered
    (t : List (StaticName × FunctionWorkerConfig)) (f : StaticName)
    (hne : insertedFor f t ≠ []) :
    ∃ v, (runTrace t).map f = some v ∧ v ≠ [] := by
  cases hv : (runTrace t).map f with
  | none => exact absurd ((wInv_runTrace t f).1 hv) hne
  | some v =>
    refine ⟨v, rfl, fun hvnil => ?_⟩
    subst hvnil
    obtain ⟨d, hd⟩ := List.exists_mem_of_ne_nil _ hne
    exact absurd (mem_vec_of_mem_insertedFor t f [] d hv hd) (by simp)

theorem mergeSort_pair (a b : FunctionWorkerConfig) :
    List.mergeSort [a, b] workerLE = if workerLE a b then [a, b] else [b, a] := by
  rw [List.mergeSort]
  simp [List.splitInTwo, List.splitAt, List.splitAt.go, List.merge]

/-- C9: `static_name_from_str` is total only for short inputs: a string of at
most 64 bytes yields the 64-byte array holding exactly the string's bytes
followed by zeros, while a string of more than 64 bytes hits an out-of-bounds
index `name[i]` and has no defined result. -/
theorem static_name_from_str_spec (s : List Nat) :
    (s.length ≤ 64 → static_name_from_str s =
      some (s ++ List.replicate (64 - s.length) 0)) ∧
    (64 < s.length → static_name_from_str s = none) := by
  constructor
  · intro h
    unfold static_name_from_str
    rw [writeBytes_in_bounds s 0 (List.replicate 64 0)
      (by rw [List.length_replicate]; omega)]
    rw [List.take_zero, List.nil_append, Nat.zero_add, List.drop_replicate]
  · intro h
    unfold static_name_from_str
    exact writeBytes_out_of_bounds s 0 (List.replicate 64 0)
      (by simp [h]) (by simp)

theorem static_name_from_str_spec_witness :
    (([1, 2, 3] : List Nat).length ≤ 64 ∧
      static_name_from_str [1, 2, 3] =
        some ([1, 2, 3] ++ List.replicate (64 - ([1, 2, 3] : List Nat).length) 0)) ∧
    (64 < (List.replicate 65 7 : List Nat).length ∧
      static_name_from_str (List.replicate 65 7) = none) :=
  ⟨⟨by decide, (static_name_from_str_spec [1, 2, 3]).1 (by decide)⟩,
    ⟨by simp, (static_name_from_str_spec (List.replicate 65 7)).2 (by simp)⟩⟩

/-- C6: under the invariant `current_load ≤ max_concurrency` (with the u32
range bound), the comparator's subtraction `max_concurrency - traffic` never
underflows: the checked u32 subtraction takes its defined branch, the result
is the exact difference and is non-negative as a signed value, and the
comparator's key is the `i32` cast of that exact difference. -/
theorem comparator_sub_no_underflow (c : FunctionWorkerConfig)
    (h1 : c.traffic ≤ c.max_concurrency) (h2 : c.max_concurrency < 2 ^ 32) :
    u32Sub c.max_concurrency c.traffic = some (spareCap c) ∧
    0 ≤ ((c.max_concurrency : Int) - (c.traffic : Int)) ∧
    sortKey c = toI32 (spareCap c) := by
  refine ⟨by simp [u32Sub, if_pos h1, spareCap], by omega, ?_⟩
  unfold sortKey spareCap
  have hw : u32WrapSub c.max_concurrency c.traffic =
      c.max_concurrency - c.traffic := by
    unfold u32WrapSub
    omega
  rw [hw]

theorem comparator_sub_no_underflow_witness :
    cfg2b.traffic ≤ cfg2b.max_concurrency ∧ cfg2b.max_concurrency < 2 ^ 32 ∧
    (u32Sub cfg2b.max_concurrency cfg2b.traffic = some (spareCap cfg2b) ∧
      0 ≤ ((cfg2b.max_concurrency : Int) - (cfg2b.traffic : Int)) ∧
      sortKey cfg2b = toI32 (spareCap cfg2b)) :=
  ⟨by decide, by decide,
    comparator_sub_no_underflow cfg2b (by decide) (by decide)⟩

/-- C7: a registration for key `f` leaves the sequence stored under every
other key `g` unchanged. -/
theorem insert_worker_config_frame (m : FunctionWorkerMap) (f g : StaticName)
    (c : FunctionWorkerConfig) (h : g ≠ f) :
    (m.insert_worker_config f c).map g = m.map g := by
  unfold FunctionWorkerMap.insert_worker_config
  cases m.map f <;> simp [h]

theorem insert_worker_config_frame_witness :
    (([2] : StaticName) ≠ [1]) ∧
    (FunctionWorkerMap.new.insert_worker_config [1] cfg1).map [2] =
      FunctionWorkerMap.new.map [2] :=
  ⟨by decide, insert_worker_config_frame FunctionWorkerMap.new [1] [2] cfg1
    (by decide)⟩

/-- C8: `get_least_busy_worker` is a pure read: the registry state comes back
unchanged, and on a non-empty sequence the call returns `Ok` with the
field-by-field copy of the stored first record, agreeing with it on all five
fields. -/
theorem get_least_busy_worker_pure_copy (m : FunctionWorkerMap)
    (f : StaticName) (hd : FunctionWorkerConfig)
    (tl : List FunctionWorkerConfig) :
    (m.get_least_busy_worker f).1 = m ∧
    (m.map f = some (hd :: tl) →
      (m.get_least_busy_worker f).2 = Except.ok hd.copy ∧
      hd.copy.function_name = hd.function_name ∧
      hd.copy.worker_uuid = hd.worker_uuid ∧
      hd.copy.timeout = hd.timeout ∧
      hd.copy.traffic = hd.traffic ∧
      hd.copy.max_concurrency = hd.max_concurrency) := by
  constructor
  · unfold FunctionWorkerMap.get_least_busy_worker
    cases m.map f with
    | none => rfl
    | some v => cases v <;> rfl
  · intro h
    refine ⟨?_, rfl, rfl, rfl, rfl, rfl⟩
    unfold FunctionWorkerMap.get_least_busy_worker
    rw [h]

theorem get_least_busy_worker_pure_copy_witness :
    ((runTrace [([1], cfg1)]).get_least_busy_worker [1]).1 =
      runTrace [([1], cfg1)] ∧
    ((runTrace [([1], cfg1)]).get_least_busy_worker [1]).2 =
      Except.ok cfg1.copy ∧
    cfg1.copy.function_name = cfg1.function_name ∧
    cfg1.copy.worker_uuid = cfg1.worker_uuid ∧
    cfg1.copy.timeout = cfg1.timeout ∧
    cfg1.copy.traffic = cfg1.traffic ∧
    cfg1.copy.max_concurrency = cfg1.max_concurrency := by
  have h := get_least_busy_worker_pure_copy (runTrace [([1], cfg1)]) [1] cfg1 []
  exact ⟨h.1, h.2 (by decide)⟩

/-- C4 (amended): `insert_worker_config` performs no validation and has no
error return: every call stores the given config under the given key, even
when `max_concurrency = 0` or the config's `function_name` differs from the
key. -/
theorem insert_worker_config_always_registers (m : FunctionWorkerMap)
    (f : StaticName) (c : FunctionWorkerConfig) :
    ∃ v, (m.insert_worker_config f c).map f = some v ∧ c ∈ v := by
  cases h : m.map f with
  | none => exact ⟨[c], insert_map_self_none m f c h, by simp⟩
  | some v0 =>
    refine ⟨_, insert_map_self_some m f c v0 h, ?_⟩
    rw [List.mem_mergeSort]
    simp

/-- C4 counterexample: a config with `max_concurrency = 0` and a function
identity different from the key is accepted — the call returns no error and
the registry state changes, contradicting the claimed `InvalidCapacity` and
`IdentityMismatch` failures with unchanged state. -/
theorem insert_worker_config_no_validation_cx :
    (FunctionWorkerMap.new.insert_worker_config [1] cfgZero).map [1] =
      some [cfgZero] ∧
    cfgZero.max_concurrency = 0 ∧
    cfgZero.function_name ≠ [1] ∧
    FunctionWorkerMap.new.map [1] = none := by
  refine ⟨?_, rfl, by decide, rfl⟩
  exact insert_map_self_none FunctionWorkerMap.new [1] cfgZero rfl

/-- C2 (amended): `get_least_busy_worker` returns the error with code 1
exactly when no sequence exists for the identity, and the error with code 2
exactly when a sequence exists but is empty; the two error cases carry
distinct codes and are therefore distinguishable. A non-empty sequence —
even one in which every entry is saturated — yields `Ok` with its first
entry, so saturation is not reported as an error. -/
theorem get_least_busy_worker_error_cases (m : FunctionWorkerMap)
    (f : StaticName) (c : FunctionWorkerConfig)
    (cs : List FunctionWorkerConfig) :
    ((m.get_least_busy_worker f).2 =
        Except.error ⟨1, "No worker is mapped for the function"⟩ ↔
      m.map f = none) ∧
    ((m.get_least_busy_worker f).2 =
        Except.error ⟨2, "No worker is mapped for the function"⟩ ↔
      m.map f = some []) ∧
    (m.map f = some (c :: cs) →
      (m.get_least_busy_worker f).2 = Except.ok c) := by
  unfold FunctionWorkerMap.get_least_busy_worker
  cases h : m.map f with
  | none => simp
  | some v =>
    cases v with
    | nil => simp
    | cons c' cs' =>
      refine ⟨by simp, by simp, fun hc => ?_⟩
      simp only [Option.some.injEq, List.cons.injEq] at hc
      obtain ⟨h1, h2⟩ := hc
      subst h1
      rfl

theorem get_least_busy_worker_error_cases_witness :
    ((runTrace [([1], cfgSat)]).get_least_busy_worker [1]).2 =
      Except.ok cfgSat := by
  exact (get_least_busy_worker_error_cases (runTrace [([1], cfgSat)]) [1]
    cfgSat []).2.2 (by decide)

/-- C2 counterexample: a function whose only registered worker is fully
saturated (`traffic = max_concurrency`) — the claim requires the
no-eligible-worker error, but the code returns `Ok` with the saturated
worker. -/
theorem get_least_busy_worker_saturated_cx :
    ((runTrace [([1], cfgSat)]).get_least_busy_worker [1]).2 =
      Except.ok cfgSat ∧
    cfgSat.traffic = cfgSat.max_concurrency ∧
    (runTrace [([1], cfgSat)]).map [1] = some [cfgSat] := by
  refine ⟨?_, rfl, by decide⟩
  have h : (runTrace [([1], cfgSat)]).map [1] = some [cfgSat] := by decide
  unfold FunctionWorkerMap.get_least_busy_worker
  rw [h]
  rfl

/-- C3 (amended): a second registration for the same (function, worker) pair
appends a new record instead of replacing the old one: the sequence length
for that function grows by one and both the old and the new record are
present, so the sequence can hold duplicate worker identities. -/
theorem insert_worker_config_appends_duplicate (m : FunctionWorkerMap)
    (f : StaticName) (c c0 : FunctionWorkerConfig)
    (v : List FunctionWorkerConfig) (hv : m.map f = some v) (hc0 : c0 ∈ v)
    (huuid : c0.worker_uuid = c.worker_uuid) :
    ∃ w, (m.insert_worker_config f c).map f = some w ∧
      w.length = v.length + 1 ∧ c0 ∈ w ∧ c ∈ w := by
  refine ⟨_, insert_map_self_some m f c v hv, ?_, ?_, ?_⟩
  · rw [List.length_mergeSort, List.length_append]
    rfl
  · rw [List.mem_mergeSort]
    exact List.mem_append_left _ hc0
  · rw [List.mem_mergeSort]
    simp

theorem insert_worker_config_appends_duplicate_witness :
    (runTrace [([1], cfgDupA)]).map [1] = some [cfgDupA] ∧
    cfgDupA.worker_uuid = cfgDupB.worker_uuid ∧
    (∃ w, ((runTrace [([1], cfgDupA)]).insert_worker_config [1] cfgDupB).map
        [1] = some w ∧
      w.length = [cfgDupA].length + 1 ∧ cfgDupA ∈ w ∧ cfgDupB ∈ w) :=
  ⟨by decide, by decide,
    insert_worker_config_appends_duplicate (runTrace [([1], cfgDupA)]) [1]
      cfgDupB cfgDupA [cfgDupA] (by decide) (by decide) (by decide)⟩

/-- C3 counterexample: registering worker `[7]` twice for function `[1]`
leaves a two-element sequence containing both records with the same
`worker_uuid` — the claim requires the length to stay 1 with no duplicate
worker identity. -/
theorem insert_worker_config_duplicate_cx :
    ((runTrace [([1], cfgDupA)]).insert_worker_config [1] cfgDupB).map [1] =
      some [cfgDupB, cfgDupA] ∧
    cfgDupA.worker_uuid = cfgDupB.worker_uuid ∧
    cfgDupA ≠ cfgDupB := by
  refine ⟨?_, rfl, by decide⟩
  rw [insert_map_self_some _ _ _ [cfgDupA] (by decide)]
  rw [show [cfgDupA] ++ [cfgDupB] = [cfgDupA, cfgDupB] from rfl]
  rw [mergeSort_pair]
  rw [show workerLE cfgDupA cfgDupB = false from by decide]
  rfl

/-- C10: in every state reachable through the public API from
`FunctionWorkerMap::new`, every sequence present in the map is non-empty;
consequently `get_least_busy_worker` either succeeds or fails with error
code 1, and the empty-sequence branch with error code 2 is unreachable. -/
theorem reachable_no_empty_vec (m : FunctionWorkerMap) (f : StaticName)
    (hm : Reachable m) :
    m.map f ≠ some [] ∧
    ((∃ c, (m.get_least_busy_worker f).2 = Except.ok c) ∨
      (m.get_least_busy_worker f).2 =
        Except.error ⟨1, "No worker is mapped for the function"⟩) := by
  have h1 : m.map f ≠ some [] := by
    induction hm with
    | base => simp [FunctionWorkerMap.new]
    | step g c hm ih =>
      by_cases hf : f = g
      · subst hf
        rename_i m'
        cases hh : m'.map f with
        | none => rw [insert_map_self_none _ _ _ hh]; simp
        | some v =>
          rw [insert_map_self_some _ _ _ _ hh]
          intro habs
          injection habs with habs
          have hlen := congrArg List.length habs
          rw [List.length_mergeSort, List.length_append] at hlen
          simp at hlen
      · rw [insert_map_ne _ _ _ _ hf]
        exact ih
  refine ⟨h1, ?_⟩
  cases hh : m.map f with
  | none =>
    right
    unfold FunctionWorkerMap.get_least_busy_worker
    rw [hh]
  | some v =>
    cases v with
    | nil => exact absurd hh h1
    | cons c cs =>
      left
      refine ⟨c.copy, ?_⟩
      unfold FunctionWorkerMap.get_least_busy_worker
      rw [hh]

theorem reachable_no_empty_vec_witness :
    (FunctionWorkerMap.new.insert_worker_config [1] cfg1).map [1] ≠
      some [] ∧
    ((∃ c, ((FunctionWorkerMap.new.insert_worker_config
        [1] cfg1).get_least_busy_worker [1]).2 = Except.ok c) ∨
      ((FunctionWorkerMap.new.insert_worker_config
        [1] cfg1).get_least_busy_worker [1]).2 =
        Except.error ⟨1, "No worker is mapped for the function"⟩) :=
  reachable_no_empty_vec (FunctionWorkerMap.new.insert_worker_config [1] cfg1)
    [1] (Reachable.step [1] cfg1 Reachable.base)

/-- C5 (amended): in every registry state reachable by `insert_worker_config`
calls whose configs satisfy `current_load ≤ max_concurrency` (with the u32
range bound) and whose spare capacity is below `2^31` (so the `i32` cast is
faithful), every stored sequence is ordered descending by spare capacity
`max_concurrency − current_load`, and entries of equal spare capacity appear
in ascending registration order; the invariant is re-established by every
mutating call. -/
theorem runTrace_sorted_desc (t : List (StaticName × FunctionWorkerConfig))
    (f : StaticName) (v : List FunctionWorkerConfig) (k : Nat)
    (hb : ∀ p ∈ t, goodCfg p.2) (hv : (runTrace t).map f = some v) :
    List.Chain' (fun a b => spareCap b ≤ spareCap a) v ∧
    v.filter (fun d => decide (spareCap d = k)) =
      (insertedFor f t).filter (fun d => decide (spareCap d = k)) := by
  have inv := (wInv_runTrace t f).2 v hv
  have hgood : ∀ d ∈ v, goodCfg d := fun d hd =>
    goodCfg_of_mem_insertedFor t f d hb (mem_insertedFor_of_mem_vec t f v d hv hd)
  have his : ∀ d ∈ insertedFor f t, goodCfg d := fun d hd =>
    goodCfg_of_mem_insertedFor t f d hb hd
  constructor
  · apply List.Pairwise.chain'
    apply List.Pairwise.imp_of_mem ?_ inv.1
    intro a b ha hb' hab
    simp only [workerLE, decide_eq_true_eq] at hab
    rw [sortKey_eq_spareCap a (hgood a ha),
      sortKey_eq_spareCap b (hgood b hb')] at hab
    exact_mod_cast hab
  · have e1 : v.filter (fun d => decide (spareCap d = k)) =
        v.filter (fun d => decide (sortKey d = (k : Int))) :=
      List.filter_congr (fun d hd => by
        rw [sortKey_eq_spareCap d (hgood d hd)]
        exact decide_eq_decide.mpr Nat.cast_inj.symm)
    have e2 : (insertedFor f t).filter (fun d => decide (spareCap d = k)) =
        (insertedFor f t).filter (fun d => decide (sortKey d = (k : Int))) :=
      List.filter_congr (fun d hd => by
        rw [sortKey_eq_spareCap d (his d hd)]
        exact decide_eq_decide.mpr Nat.cast_inj.symm)
    rw [e1, e2, inv.2 (k : Int)]

theorem runTrace_sorted_desc_witness :
    List.Chain' (fun a b => spareCap b ≤ spareCap a) [cfg2b, cfg1] ∧
    [cfg2b, cfg1].filter (fun d => decide (spareCap d = 1)) =
      (insertedFor [1] [([1], cfg1), ([1], cfg2b)]).filter
        (fun d => decide (spareCap d = 1)) := by
  have hv : (runTrace [([1], cfg1), ([1], cfg2b)]).map [1] =
      some [cfg2b, cfg1] := by
    show ((FunctionWorkerMap.new.insert_worker_config [1]
      cfg1).insert_worker_config [1] cfg2b).map [1] = _
    rw [insert_map_self_some _ _ _ [cfg1] (by decide)]
    rw [show [cfg1] ++ [cfg2b] = [cfg1, cfg2b] from rfl, mergeSort_pair]
    decide
  exact runTrace_sorted_desc [([1], cfg1), ([1], cfg2b)] [1] [cfg2b, cfg1] 1
    (by decide) hv

/-- C5 counterexample: a reachable state (both inserted configs satisfy
`current_load ≤ max_concurrency`) whose stored sequence is not descending in
spare capacity: the `i32` cast orders spare capacity `2^31` below spare
capacity 1. -/
theorem runTrace_not_sorted_cx :
    (runTrace [([1], cfgBig), ([1], cfgSmall)]).map [1] =
      some [cfgSmall, cfgBig] ∧
    spareCap cfgSmall < spareCap cfgBig ∧
    cfgBig.traffic ≤ cfgBig.max_concurrency ∧
    cfgSmall.traffic ≤ cfgSmall.max_concurrency := by
  refine ⟨?_, by decide, by decide, by decide⟩
  show ((FunctionWorkerMap.new.insert_worker_config [1]
    cfgBig).insert_worker_config [1] cfgSmall).map [1] = _
  rw [insert_map_self_some _ _ _ [cfgBig] (by decide)]
  rw [show [cfgBig] ++ [cfgSmall] = [cfgBig, cfgSmall] from rfl, mergeSort_pair]
  decide

/-- C1 (amended): in every registry state reachable by `insert_worker_config`
calls whose configs satisfy `current_load ≤ max_concurrency` (with the u32
range bound) and whose spare capacity is below `2^31` (so the `i32` cast is
faithful), `get_least_busy_worker` on a function with at least one
registration returns `Ok` with a copy of a registered entry whose spare
capacity is maximal, and among entries of equal maximal spare capacity it is
the earliest registered one. -/
theorem get_least_busy_worker_max_spare
    (t : List (StaticName × FunctionWorkerConfig)) (f : StaticName)
    (d : FunctionWorkerConfig) (hb : ∀ p ∈ t, goodCfg p.2)
    (hne : insertedFor f t ≠ []) :
    ∃ c, ((runTrace t).get_least_busy_worker f).2 = Except.ok c ∧
      c ∈ insertedFor f t ∧
      (d ∈ insertedFor f t → spareCap d ≤ spareCap c) ∧
      ((insertedFor f t).filter
        (fun e => decide (spareCap e = spareCap c))).head? = some c := by
  obtain ⟨v, hv, hvne⟩ := runTrace_vec_of_registered t f hne
  obtain ⟨c0, tl, rfl⟩ := List.exists_cons_of_ne_nil hvne
  have inv := (wInv_runTrace t f).2 _ hv
  have hgood : ∀ e ∈ c0 :: tl, goodCfg e := fun e he =>
    goodCfg_of_mem_insertedFor t f e hb (mem_insertedFor_of_mem_vec t f _ e hv he)
  have hc0 : c0 ∈ insertedFor f t :=
    mem_insertedFor_of_mem_vec t f _ c0 hv (List.mem_cons_self c0 tl)
  refine ⟨c0, ?_, hc0, ?_, ?_⟩
  · unfold FunctionWorkerMap.get_least_busy_worker
    rw [hv]
    rfl
  · intro hdin
    have hdv := mem_vec_of_mem_insertedFor t f _ d hv hdin
    rcases List.mem_cons.mp hdv with h | h
    · rw [h]
    · have hle := List.rel_of_pairwise_cons inv.1 h
      simp only [workerLE, decide_eq_true_eq] at hle
      rw [sortKey_eq_spareCap d (hgood d (List.mem_cons_of_mem _ h)),
        sortKey_eq_spareCap c0 (hgood c0 (List.mem_cons_self _ _))] at hle
      exact_mod_cast hle
  · have his : ∀ e ∈ insertedFor f t, goodCfg e := fun e he =>
      goodCfg_of_mem_insertedFor t f e hb he
    have e2 : (insertedFor f t).filter
        (fun e => decide (spareCap e = spareCap c0)) =
        (insertedFor f t).filter
          (fun e => decide (sortKey e = sortKey c0)) :=
      List.filter_congr (fun e he => by
        rw [sortKey_eq_spareCap e (his e he),
          sortKey_eq_spareCap c0 (hgood c0 (List.mem_cons_self _ _))]
        exact decide_eq_decide.mpr Nat.cast_inj.symm)
    rw [e2, ← inv.2 (sortKey c0)]
    simp [List.filter_cons]

theorem get_least_busy_worker_max_spare_witness :
    ∃ c, ((runTrace [([1], cfg1), ([1], cfgTie)]).get_least_busy_worker
        [1]).2 = Except.ok c ∧
      c ∈ insertedFor [1] [([1], cfg1), ([1], cfgTie)] ∧
      (cfgTie ∈ insertedFor [1] [([1], cfg1), ([1], cfgTie)] →
        spareCap cfgTie ≤ spareCap c) ∧
      ((insertedFor [1] [([1], cfg1), ([1], cfgTie)]).filter
        (fun e => decide (spareCap e = spareCap c))).head? = some c :=
  get_least_busy_worker_max_spare [([1], cfg1), ([1], cfgTie)] [1] cfgTie
    (by decide) (by decide)

/-- C1 counterexample: with two registered workers both satisfying
`current_load ≤ max_concurrency`, one of spare capacity `2^31` and one of
spare capacity 1, the `i32` cast makes the large spare capacity compare
negative and `get_least_busy_worker` returns the spare-1 worker, not the one
with maximal spare capacity. -/
theorem get_least_busy_worker_i32_cx :
    ((runTrace [([1], cfgBig), ([1], cfgSmall)]).get_least_busy_worker
        [1]).2 = Except.ok cfgSmall ∧
    cfgBig ∈ insertedFor [1] [([1], cfgBig), ([1], cfgSmall)] ∧
    spareCap cfgSmall < spareCap cfgBig ∧
    cfgBig.traffic ≤ cfgBig.max_concurrency ∧
    cfgSmall.traffic ≤ cfgSmall.max_concurrency := by
  refine ⟨?_, by decide, by decide, by decide, by decide⟩
  have hv : (runTrace [([1], cfgBig), ([1], cfgSmall)]).map [1] =
      some [cfgSmall, cfgBig] := by
    show ((FunctionWorkerMap.new.insert_worker_config [1]
      cfgBig).insert_worker_config [1] cfgSmall).map [1] = _
    rw [insert_map_self_some _ _ _ [cfgBig] (by decide)]
    rw [show [cfgBig] ++ [cfgSmall] = [cfgBig, cfgSmall] from rfl,
      mergeSort_pair]
    decide
  unfold FunctionWorkerMap.get_least_busy_worker
  rw [hv]
  rfl
